import Mathlib

/-!
Shallow embedding of `median_degree.py`, a script that maintains a Venmo
transaction graph inside a rolling 60-second window and reports the median
node degree after each transaction line.

Identifiers are strings, timestamps are integers counting seconds (the
script parses times at second granularity and compares them through
`total_seconds()`), the Python dictionaries `edges` and `nodes` become
insertion-ordered association lists, and the floating point medians
(which are always integers or half-integers) become rationals.
-/

namespace MedianDegree

abbrev Node := String

/-- An edge key: the pair of usernames as ordered by `tuple(sorted(...))`. -/
abbrev Edge := String × String

/-- One parsed transaction: target and actor usernames plus the timestamp,
as extracted by `edge_from_str` before the pair is canonicalized. -/
structure Event where
  target : String
  actor  : String
  time   : Int
deriving DecidableEq, Repr

/-- `tuple(sorted([target, actor]))` from `edge_from_str` (line 92):
the two usernames in ascending lexicographic order. -/
def canonEdge (target actor : String) : Edge :=
  if target ≤ actor then (target, actor) else (actor, target)

/-- Dictionary read on `edges`: value stored for key `k`, if present. -/
def getEdge? : List (Edge × Int) → Edge → Option Int
  | [], _ => none
  | (e, t) :: rest, k => if e = k then some t else getEdge? rest k

/-- Dictionary write `edges[edge] = time_obj`: update in place, or append
a new key at the end (Python dictionaries preserve insertion order). -/
def setEdge : List (Edge × Int) → Edge → Int → List (Edge × Int)
  | [], k, v => [(k, v)]
  | (e, t) :: rest, k, v =>
      if e = k then (e, v) :: rest else (e, t) :: setEdge rest k v

/-- Dictionary read on `nodes`: stored degree for node `x`, if present. -/
def nodeDeg? : List (Node × Nat) → Node → Option Nat
  | [], _ => none
  | (y, d) :: rest, x => if y = x then some d else nodeDeg? rest x

/-- Stored degree of `x`, with `0` for an absent node. -/
def degOf (ns : List (Node × Nat)) (x : Node) : Nat :=
  (nodeDeg? ns x).getD 0

/-- Dictionary write `nodes[x] = v` (used for the bootstrap literal
`{edge[0]: 1, edge[1]: 1}`, whose second binding overwrites the first
when the two keys coincide). -/
def setNode : List (Node × Nat) → Node → Nat → List (Node × Nat)
  | [], x, v => [(x, v)]
  | (y, d) :: rest, x, v =>
      if y = x then (y, v) :: rest else (y, d) :: setNode rest x v

/-- Admission bookkeeping for one endpoint (lines 171-174 / 207-210):
`nodes[node] += 1` when present, else `nodes[node] = 1`. -/
def addNode : List (Node × Nat) → Node → List (Node × Nat)
  | [], x => [(x, 1)]
  | (y, d) :: rest, x =>
      if y = x then (y, d + 1) :: rest else (y, d) :: addNode rest x

/-- Eviction bookkeeping for one endpoint (lines 188-191): remove the node
when its degree is 1, otherwise decrement.  The lookup `nodes[node]` on a
missing key raises an uncaught `KeyError` in the script, modelled here by
`none`. -/
def decNode? : List (Node × Nat) → Node → Option (List (Node × Nat))
  | [], _ => none
  | (y, d) :: rest, x =>
      if y = x then some (if d = 1 then rest else (y, d - 1) :: rest)
      else
        match decNode? rest x with
        | none => none
        | some ns => some ((y, d) :: ns)

/-- Number of edges in the table that contain node `x` as an endpoint. -/
def incident (x : Node) : List (Edge × Int) → Nat
  | [] => 0
  | (e, _) :: rest => (if x = e.1 ∨ x = e.2 then 1 else 0) + incident x rest

/-- `statistics.median`: sort the data ascending (here by insertion sort,
which computes the same ascending reordering as Python's `sorted`), then
take the middle element for an odd count and the mean of the two middle
elements for an even count, exactly as in the CPython implementation
(`data[n//2]`, resp. `(data[n//2-1] + data[n//2]) / 2`). -/
def median (l : List Nat) : ℚ :=
  let s := l.insertionSort (fun a b => a ≤ b)
  if l.length % 2 = 1 then ((s.getD (l.length / 2) 0 : Nat) : ℚ)
  else (((s.getD (l.length / 2 - 1) 0 : Nat) : ℚ) +
        ((s.getD (l.length / 2) 0 : Nat) : ℚ)) / 2

/-- `int(median_degree * 100)`: the median times 100, truncated toward
zero. -/
def truncTo2 (q : ℚ) : Int := (q.num * 100).tdiv (q.den : Int)

/-- `'%.2f' % (t / 100)` for a nonnegative integer `t`: the integer part,
a dot, and the remainder padded to two digits. -/
def fmt2 (t : Int) : String :=
  toString (t.toNat / 100) ++ "." ++
    (if t.toNat % 100 < 10 then "0" else "") ++ toString (t.toNat % 100)

/-- `med_degree_str = '%.2f' % (int(median_degree*100)/100) + '\r\n'`. -/
def medStrOf (q : ℚ) : String := fmt2 (truncTo2 q) ++ "\r\n"

/-- The mutable state of `main` after bootstrap: the `edges` and `nodes`
dictionaries, `latest_time`, `median_degree` and `med_degree_str`. -/
structure GState where
  edges     : List (Edge × Int)
  nodes     : List (Node × Nat)
  latest    : Int
  medianDeg : ℚ
  medStr    : String
deriving DecidableEq, Repr

/-- State built by the bootstrap loop from the first parsed event
(lines 136-148): one edge, the dictionary literal `{edge[0]:1, edge[1]:1}`
for the nodes, `latest_time` the event time, median `1.0`. -/
def bootState (ev : Event) : GState :=
  let e := canonEdge ev.target ev.actor
  { edges := [(e, ev.time)]
  , nodes := setNode (setNode [] e.1 1) e.2 1
  , latest := ev.time
  , medianDeg := 1
  , medStr := medStrOf 1 }

/-- `for node in edge: ...` admission bookkeeping (lines 170-174 and
206-210): increment or create the entry of both endpoints, in order. -/
def admitNodes (ns : List (Node × Nat)) (e : Edge) : List (Node × Nat) :=
  addNode (addNode ns e.1) e.2

/-- The eviction loop over `evict_edges` (lines 185-191): for each evicted
edge, in order, decrement or remove both endpoints; a `KeyError` on either
endpoint aborts the whole loop (and the program). -/
def evictNodes? : List (Edge × Int) → List (Node × Nat) →
    Option (List (Node × Nat))
  | [], ns => some ns
  | p :: rest, ns =>
      match decNode? ns p.1.1 with
      | none => none
      | some ns1 =>
          match decNode? ns1 p.1.2 with
          | none => none
          | some ns2 => evictNodes? rest ns2

/-- Packaging of the fields mutated by a recomputation step: store the
dictionaries and the clock, recompute `median_degree` from
`nodes.values()` and `med_degree_str` from it (lines 193-196, 211-214). -/
def mkState (edges : List (Edge × Int)) (nodes : List (Node × Nat))
    (latest : Int) : GState :=
  { edges := edges, nodes := nodes, latest := latest,
    medianDeg := median (nodes.map Prod.snd),
    medStr := medStrOf (median (nodes.map Prod.snd)) }

/-- Case A (lines 165-197), for canonical edge `e` at time `t ≥ latest`:
admit or refresh the edge, then, only when the clock strictly advances,
evict every edge at or behind the new window end, and recompute.  A
`KeyError` inside the eviction loop aborts the step (`none`): nothing
more is written. -/
def stepA (s : GState) (e : Edge) (t : Int) : Option GState :=
  let edges1 := setEdge s.edges e t
  let nodes1 := if (getEdge? s.edges e).isSome then s.nodes
                else admitNodes s.nodes e
  if 0 < t - s.latest then
    match evictNodes? (edges1.filter fun p => decide (p.2 ≤ t - 60)) nodes1 with
    | none => none
    | some nodes2 =>
        some (mkState (edges1.filter fun p => !decide (p.2 ≤ t - 60)) nodes2 t)
  else
    some (mkState edges1 nodes1 s.latest)

/-- Case B with the edge already present, stored time `told`
(lines 201-203, 213-214): move the time forward only, reuse the median. -/
def stepBold (s : GState) (e : Edge) (t told : Int) : GState :=
  { s with edges := if told < t then setEdge s.edges e t else s.edges,
           medStr := medStrOf s.medianDeg }

/-- Case B with a new edge (lines 204-214): admit it, no eviction,
recompute the median. -/
def stepBnew (s : GState) (e : Edge) (t : Int) : GState :=
  mkState (setEdge s.edges e t) (admitNodes s.nodes e) s.latest

/-- One iteration of the main loop body (lines 153-219) on a parsed event:
the new state and the line written to the output file, or `none` when the
eviction loop of Case A raised `KeyError` (the line of 196-197 is then
never reached, so nothing is written for this event). -/
def step (s : GState) (ev : Event) : Option (GState × String) :=
  let e := canonEdge ev.target ev.actor
  let t := ev.time
  if 0 ≤ t - s.latest then
    match stepA s e t with
    | none => none
    | some s1 => some (s1, s1.medStr)
  else if -60 < t - s.latest then
    match getEdge? s.edges e with
    | some told => some (stepBold s e t told, medStrOf s.medianDeg)
    | none => some (stepBnew s e t, (stepBnew s e t).medStr)
  else
    -- Case C (lines 218-219): write the stored string, change nothing
    some (s, s.medStr)

/-- The `for line in input_data` loop (lines 151-219) over the Event
Source results of the remaining lines: the final state (`none` when a
step raised an uncaught `KeyError`, killing the program) and the list of
lines written before the run ended. -/
def runEvents : GState → List (Option Event) → Option GState × List String
  | s, [] => (some s, [])
  | s, none :: rest => runEvents s rest
  | s, some ev :: rest =>
      match step s ev with
      | none => (none, [])
      | some (s1, out) =>
          ((runEvents s1 rest).1, out :: (runEvents s1 rest).2)

/-- The whole of `main` after the files are opened, driven by the Event
Source results of the input lines.  The outer `none` means the bootstrap
loop never found a first parsed event (at end of file `readline()` keeps
returning the empty string, which parses to nothing, so the `while` loop
of lines 133-148 never exits); an inner `none` means a later step died
with `KeyError`, after writing the listed lines. -/
def processAll : List (Option Event) → Option (Option GState × List String)
  | [] => none
  | none :: rest => processAll rest
  | some ev :: rest =>
      some ((runEvents (bootState ev) rest).1,
            (bootState ev).medStr :: (runEvents (bootState ev) rest).2)

/-- The bootstrap `while median_degree == 0` loop (lines 133-148) with
explicit fuel, reading from the remaining input lines; past the end of
the list `readline()` yields the empty string, for which `edge_from_str`
returns `None`, so the loop body consumes no line and repeats.  Returns
the first parsed event and the unread rest, or `none` when the fuel runs
out before an event is found. -/
def bootLoopFuel : Nat → List (Option Event) → Option (Event × List (Option Event))
  | 0, _ => none
  | fuel + 1, [] => bootLoopFuel fuel []
  | fuel + 1, none :: rest => bootLoopFuel fuel rest
  | _ + 1, some ev :: rest => some (ev, rest)

/-! ### Association-list lemmas for the `edges` dictionary -/

theorem getEdge?_eq_none_iff (l : List (Edge × Int)) (k : Edge) :
    getEdge? l k = none ↔ k ∉ l.map Prod.fst := by
  induction l with
  | nil => simp [getEdge?]
  | cons p rest ih =>
      obtain ⟨e, t⟩ := p
      by_cases h : e = k
      · subst h; simp [getEdge?]
      · simp [getEdge?, h, ih, Ne.symm h]

theorem getEdge?_mem {l : List (Edge × Int)} {k : Edge} {v : Int}
    (h : getEdge? l k = some v) : (k, v) ∈ l := by
  induction l with
  | nil => simp [getEdge?] at h
  | cons p rest ih =>
      obtain ⟨e, t⟩ := p
      by_cases he : e = k
      · subst he
        have ht : t = v := by simpa [getEdge?] using h
        subst ht
        exact List.mem_cons_self _ _
      · simp only [getEdge?, if_neg he] at h
        exact List.mem_cons_of_mem _ (ih h)

theorem mem_getEdge? {l : List (Edge × Int)} {k : Edge} {v : Int}
    (hnd : (l.map Prod.fst).Nodup) (h : (k, v) ∈ l) : getEdge? l k = some v := by
  induction l with
  | nil => simp at h
  | cons p rest ih =>
      obtain ⟨e, t⟩ := p
      simp only [List.map_cons, List.nodup_cons] at hnd
      rcases List.mem_cons.1 h with h1 | h1
      · rw [← h1]; simp [getEdge?]
      · have hke : e ≠ k := by
          intro he; subst he
          exact hnd.1 (List.mem_map_of_mem Prod.fst h1)
        simp only [getEdge?, if_neg hke]
        exact ih hnd.2 h1

theorem getEdge?_setEdge_self (l : List (Edge × Int)) (k : Edge) (v : Int) :
    getEdge? (setEdge l k v) k = some v := by
  induction l with
  | nil => simp [setEdge, getEdge?]
  | cons p rest ih =>
      obtain ⟨e, t⟩ := p
      by_cases h : e = k
      · subst h; simp [setEdge, getEdge?]
      · simp [setEdge, getEdge?, h, ih]

theorem getEdge?_setEdge_ne (l : List (Edge × Int)) {k k2 : Edge} (v : Int)
    (h : k2 ≠ k) : getEdge? (setEdge l k v) k2 = getEdge? l k2 := by
  induction l with
  | nil => simp [setEdge, getEdge?, Ne.symm h]
  | cons p rest ih =>
      obtain ⟨e, t⟩ := p
      by_cases he : e = k
      · subst he; simp [setEdge, getEdge?, Ne.symm h]
      · by_cases he2 : e = k2
        · subst he2; simp [setEdge, getEdge?, he]
        · simp [setEdge, getEdge?, he, he2, ih]

theorem setEdge_of_none {l : List (Edge × Int)} {k : Edge} (v : Int)
    (h : getEdge? l k = none) : setEdge l k v = l ++ [(k, v)] := by
  induction l with
  | nil => simp [setEdge]
  | cons p rest ih =>
      obtain ⟨e, t⟩ := p
      by_cases he : e = k
      · subst he; simp [getEdge?] at h
      · simp only [getEdge?, if_neg he] at h
        simp [setEdge, he, ih h]

theorem setEdge_of_self {l : List (Edge × Int)} {k : Edge} {v : Int}
    (h : getEdge? l k = some v) : setEdge l k v = l := by
  induction l with
  | nil => simp [getEdge?] at h
  | cons p rest ih =>
      obtain ⟨e, t⟩ := p
      by_cases he : e = k
      · subst he
        have ht : t = v := by simpa [getEdge?] using h
        subst ht
        simp [setEdge]
      · simp only [getEdge?, if_neg he] at h
        simp [setEdge, he, ih h]

theorem mem_setEdge {l : List (Edge × Int)} {k : Edge} {v : Int}
    {p : Edge × Int} (h : p ∈ setEdge l k v) : p ∈ l ∨ p = (k, v) := by
  induction l with
  | nil => simp [setEdge] at h; simp [h]
  | cons q rest ih =>
      obtain ⟨e, t⟩ := q
      by_cases he : e = k
      · subst he
        simp only [setEdge, if_pos rfl] at h
        rcases List.mem_cons.1 h with h1 | h1
        · right; simp [h1]
        · left; exact List.mem_cons_of_mem _ h1
      · simp only [setEdge, if_neg he] at h
        rcases List.mem_cons.1 h with h1 | h1
        · left; simp [h1]
        · rcases ih h1 with h2 | h2
          · left; exact List.mem_cons_of_mem _ h2
          · right; exact h2

theorem setEdge_map_fst_of_some {l : List (Edge × Int)} {k : Edge} (v : Int)
    (h : (getEdge? l k).isSome) :
    (setEdge l k v).map Prod.fst = l.map Prod.fst := by
  induction l with
  | nil => simp [getEdge?] at h
  | cons p rest ih =>
      obtain ⟨e, t⟩ := p
      by_cases he : e = k
      · subst he; simp [setEdge]
      · simp only [getEdge?, if_neg he] at h
        simp [setEdge, he, ih h]

theorem setEdge_nodup {l : List (Edge × Int)} {k : Edge} (v : Int)
    (h : (l.map Prod.fst).Nodup) : ((setEdge l k v).map Prod.fst).Nodup := by
  rcases ho : getEdge? l k with _ | w
  · rw [setEdge_of_none v ho]
    have hk : k ∉ l.map Prod.fst := (getEdge?_eq_none_iff l k).1 ho
    simp only [List.map_append, List.map_cons, List.map_nil]
    refine List.Nodup.append h (List.nodup_singleton k) ?_
    intro a ha hb
    simp only [List.mem_singleton] at hb
    subst hb
    exact hk ha
  · rw [setEdge_map_fst_of_some v (by simp [ho])]; exact h

/-! ### Lemmas about `incident` -/

theorem incident_append (x : Node) (l₁ l₂ : List (Edge × Int)) :
    incident x (l₁ ++ l₂) = incident x l₁ + incident x l₂ := by
  induction l₁ with
  | nil => simp [incident]
  | cons p rest ih => simp [incident, ih]; ring

theorem incident_filter_add (x : Node) (b : Edge × Int → Bool)
    (l : List (Edge × Int)) :
    incident x (l.filter b) + incident x (l.filter fun p => !(b p)) =
      incident x l := by
  induction l with
  | nil => simp [incident]
  | cons p rest ih =>
      by_cases hb : b p
      · simp [List.filter, hb, incident, ← ih]; ring
      · have hb' : b p = false := by simpa using hb
        simp [List.filter, hb', incident, ← ih]; ring

theorem incident_setEdge_of_some (x : Node) {l : List (Edge × Int)} {k : Edge}
    (v : Int) (h : (getEdge? l k).isSome) :
    incident x (setEdge l k v) = incident x l := by
  induction l with
  | nil => simp [getEdge?] at h
  | cons p rest ih =>
      obtain ⟨e, t⟩ := p
      by_cases he : e = k
      · subst he; simp [setEdge, incident]
      · simp only [getEdge?, if_neg he] at h
        simp [setEdge, he, incident, ih h]

theorem not_mem_of_incident_eq_zero {x : Node} {l : List (Edge × Int)}
    (h : incident x l = 0) {p : Edge × Int} (hp : p ∈ l) :
    x ≠ p.1.1 ∧ x ≠ p.1.2 := by
  induction l with
  | nil => simp at hp
  | cons q rest ih =>
      simp only [incident] at h
      rcases List.mem_cons.1 hp with h1 | h1
      · subst h1
        by_cases hx : x = p.1.1 ∨ x = p.1.2
        · simp [hx] at h
        · exact ⟨fun h1 => hx (Or.inl h1), fun h2 => hx (Or.inr h2)⟩
      · exact ih (by omega) h1

/-! ### Association-list lemmas for the `nodes` dictionary -/

/-- Well-formedness of the `nodes` dictionary as the script maintains it:
no duplicate keys (it is a dictionary) and no stored degree ever reaches
zero (a node is removed instead, line 189). -/
def GoodNodes (ns : List (Node × Nat)) : Prop :=
  (ns.map Prod.fst).Nodup ∧ ∀ p ∈ ns, 1 ≤ p.2

theorem nodeDeg?_eq_none_iff (ns : List (Node × Nat)) (x : Node) :
    nodeDeg? ns x = none ↔ x ∉ ns.map Prod.fst := by
  induction ns with
  | nil => simp [nodeDeg?]
  | cons p rest ih =>
      obtain ⟨y, d⟩ := p
      by_cases h : y = x
      · subst h; simp [nodeDeg?]
      · simp [nodeDeg?, h, ih, Ne.symm h]

theorem nodeDeg?_mem {ns : List (Node × Nat)} {x : Node} {d : Nat}
    (h : nodeDeg? ns x = some d) : (x, d) ∈ ns := by
  induction ns with
  | nil => simp [nodeDeg?] at h
  | cons p rest ih =>
      obtain ⟨y, e⟩ := p
      by_cases hy : y = x
      · subst hy
        have he : e = d := by simpa [nodeDeg?] using h
        subst he
        exact List.mem_cons_self _ _
      · simp only [nodeDeg?, if_neg hy] at h
        exact List.mem_cons_of_mem _ (ih h)

theorem degOf_addNode (ns : List (Node × Nat)) (x y : Node) :
    degOf (addNode ns x) y = degOf ns y + (if y = x then 1 else 0) := by
  induction ns with
  | nil =>
      by_cases h : y = x
      · subst h; simp [addNode, degOf, nodeDeg?]
      · have h2 : ¬ x = y := fun hh => h hh.symm
        simp [addNode, degOf, nodeDeg?, h, h2]
  | cons p rest ih =>
      obtain ⟨z, d⟩ := p
      by_cases hz : z = x
      · subst hz
        by_cases hy : z = y
        · subst hy
          simp [addNode, degOf, nodeDeg?]
        · have hy2 : ¬ y = z := fun hh => hy hh.symm
          simp [addNode, degOf, nodeDeg?, hy, hy2]
      · by_cases hy : z = y
        · subst hy
          have hyx : ¬ z = x := hz
          simp [addNode, hyx, degOf, nodeDeg?, fun hh : z = x => hz hh]
        · simp only [addNode, if_neg hz, degOf, nodeDeg?, if_neg hy]
          exact ih

theorem nodeDeg?_addNode_isSome (ns : List (Node × Nat)) (x y : Node) :
    (nodeDeg? (addNode ns x) y).isSome ↔ y = x ∨ (nodeDeg? ns y).isSome := by
  induction ns with
  | nil =>
      by_cases h : y = x
      · subst h; simp [addNode, nodeDeg?]
      · have h2 : ¬ x = y := fun hh => h hh.symm
        simp [addNode, nodeDeg?, h, h2]
  | cons p rest ih =>
      obtain ⟨z, d⟩ := p
      by_cases hz : z = x
      · subst hz
        by_cases hy : z = y
        · subst hy; simp [addNode, nodeDeg?]
        · have hy2 : ¬ y = z := fun hh => hy hh.symm
          simp [addNode, nodeDeg?, hy, hy2]
      · by_cases hy : z = y
        · subst hy; simp [addNode, hz, nodeDeg?]
        · simp only [addNode, if_neg hz, nodeDeg?, if_neg hy]
          exact ih

theorem addNode_map_fst_of_some {ns : List (Node × Nat)} {x : Node}
    (h : (nodeDeg? ns x).isSome) :
    (addNode ns x).map Prod.fst = ns.map Prod.fst := by
  induction ns with
  | nil => simp [nodeDeg?] at h
  | cons p rest ih =>
      obtain ⟨y, d⟩ := p
      by_cases hy : y = x
      · subst hy; simp [addNode]
      · simp only [nodeDeg?, if_neg hy] at h
        simp [addNode, hy, ih h]

theorem addNode_of_none {ns : List (Node × Nat)} {x : Node}
    (h : nodeDeg? ns x = none) : addNode ns x = ns ++ [(x, 1)] := by
  induction ns with
  | nil => simp [addNode]
  | cons p rest ih =>
      obtain ⟨y, d⟩ := p
      by_cases hy : y = x
      · subst hy; simp [nodeDeg?] at h
      · simp only [nodeDeg?, if_neg hy] at h
        simp [addNode, hy, ih h]

theorem addNode_pos {ns : List (Node × Nat)}
    (hpos : ∀ p ∈ ns, 1 ≤ p.2) (x : Node) :
    ∀ p ∈ addNode ns x, 1 ≤ p.2 := by
  induction ns with
  | nil =>
      intro p hp
      simp only [addNode, List.mem_singleton] at hp
      simp [hp]
  | cons q rest ih =>
      obtain ⟨y, d⟩ := q
      intro p hp
      by_cases hy : y = x
      · subst hy
        simp only [addNode, if_pos rfl] at hp
        rcases List.mem_cons.1 hp with h1 | h1
        · subst h1; simp
        · exact hpos p (List.mem_cons_of_mem _ h1)
      · simp only [addNode, if_neg hy] at hp
        rcases List.mem_cons.1 hp with h1 | h1
        · subst h1; exact hpos (y, d) (List.mem_cons_self _ _)
        · exact ih (fun q2 hq2 => hpos q2 (List.mem_cons_of_mem _ hq2)) p h1

theorem addNode_good {ns : List (Node × Nat)} (x : Node)
    (h : GoodNodes ns) : GoodNodes (addNode ns x) := by
  obtain ⟨hnd, hpos⟩ := h
  refine ⟨?_, addNode_pos hpos x⟩
  rcases ho : nodeDeg? ns x with _ | d
  · rw [addNode_of_none ho]
    have hx : x ∉ ns.map Prod.fst := (nodeDeg?_eq_none_iff ns x).1 ho
    simp only [List.map_append, List.map_cons, List.map_nil]
    refine List.Nodup.append hnd (List.nodup_singleton x) ?_
    intro a ha hb
    simp only [List.mem_singleton] at hb
    subst hb
    exact hx ha
  · rw [addNode_map_fst_of_some (by simp [ho])]; exact hnd

/-! ### Lemmas about the fallible eviction update `decNode?` -/

theorem decNode?_isSome_iff (ns : List (Node × Nat)) (x : Node) :
    (decNode? ns x).isSome ↔ (nodeDeg? ns x).isSome := by
  induction ns with
  | nil => simp [decNode?, nodeDeg?]
  | cons p rest ih =>
      obtain ⟨y, d⟩ := p
      by_cases hy : y = x
      · subst hy; simp [decNode?, nodeDeg?]
      · simp only [decNode?, if_neg hy, nodeDeg?, if_neg hy]
        have hm : ∀ o : Option (List (Node × Nat)),
            (match o with
             | none => (none : Option (List (Node × Nat)))
             | some ns1 => some ((y, d) :: ns1)).isSome = o.isSome := by
          intro o; cases o <;> rfl
        rw [hm]
        exact ih

theorem nodeDeg?_decNode?_ne {ns : List (Node × Nat)} {x : Node}
    {ns' : List (Node × Nat)} (h : decNode? ns x = some ns') {y : Node}
    (hy : y ≠ x) : nodeDeg? ns' y = nodeDeg? ns y := by
  induction ns generalizing ns' with
  | nil => simp [decNode?] at h
  | cons p rest ih =>
      obtain ⟨z, d⟩ := p
      by_cases hz : z = x
      · subst hz
        simp only [decNode?, eq_self_iff_true, if_true,
          Option.some.injEq] at h
        subst h
        have hzy : ¬ z = y := fun hh => hy (hh ▸ rfl)
        by_cases hd : d = 1
        · subst hd
          simp [nodeDeg?, hzy]
        · simp [hd, nodeDeg?, hzy]
      · simp only [decNode?, if_neg hz] at h
        rcases hrest : decNode? rest x with _ | ns1
        · rw [hrest] at h; simp at h
        · rw [hrest] at h
          simp only [Option.some.injEq] at h
          subst h
          by_cases hzy : z = y
          · subst hzy; simp [nodeDeg?]
          · simp only [nodeDeg?, if_neg hzy]
            exact ih hrest

theorem degOf_decNode?_ne {ns : List (Node × Nat)} {x : Node}
    {ns' : List (Node × Nat)} (h : decNode? ns x = some ns') {y : Node}
    (hy : y ≠ x) : degOf ns' y = degOf ns y := by
  unfold degOf
  rw [nodeDeg?_decNode?_ne h hy]

theorem degOf_decNode?_self {ns : List (Node × Nat)} {x : Node}
    {ns' : List (Node × Nat)} (hnd : (ns.map Prod.fst).Nodup)
    (h : decNode? ns x = some ns') :
    degOf ns' x = degOf ns x - 1 := by
  induction ns generalizing ns' with
  | nil => simp [decNode?] at h
  | cons p rest ih =>
      obtain ⟨z, d⟩ := p
      simp only [List.map_cons, List.nodup_cons] at hnd
      by_cases hz : z = x
      · subst hz
        simp only [decNode?, eq_self_iff_true, if_true,
          Option.some.injEq] at h
        subst h
        by_cases hd : d = 1
        · subst hd
          have hnone : nodeDeg? rest z = none :=
            (nodeDeg?_eq_none_iff rest z).2 hnd.1
          simp [degOf, nodeDeg?, hnone]
        · simp [hd, degOf, nodeDeg?]
      · simp only [decNode?, if_neg hz] at h
        rcases hrest : decNode? rest x with _ | ns1
        · rw [hrest] at h; simp at h
        · rw [hrest] at h
          simp only [Option.some.injEq] at h
          subst h
          have hzx : ¬ z = x := hz
          simp only [degOf, nodeDeg?, if_neg hzx]
          exact ih hnd.2 hrest

theorem degOf_decNode? {ns : List (Node × Nat)} {x : Node}
    {ns' : List (Node × Nat)} (hnd : (ns.map Prod.fst).Nodup)
    (h : decNode? ns x = some ns') (y : Node) :
    degOf ns' y = degOf ns y - (if y = x then 1 else 0) := by
  by_cases hy : y = x
  · subst hy
    rw [if_pos rfl]
    exact degOf_decNode?_self hnd h
  · rw [degOf_decNode?_ne h hy]
    simp [hy]

theorem decNode?_map_fst_sublist {ns : List (Node × Nat)} {x : Node}
    {ns' : List (Node × Nat)} (h : decNode? ns x = some ns') :
    List.Sublist (ns'.map Prod.fst) (ns.map Prod.fst) := by
  induction ns generalizing ns' with
  | nil => simp [decNode?] at h
  | cons p rest ih =>
      obtain ⟨z, d⟩ := p
      by_cases hz : z = x
      · subst hz
        simp only [decNode?, eq_self_iff_true, if_true,
          Option.some.injEq] at h
        subst h
        by_cases hd : d = 1
        · subst hd
          simp only [if_pos rfl, List.map_cons]
          exact List.sublist_cons_of_sublist z (List.Sublist.refl _)
        · simp only [if_neg hd, List.map_cons]
          exact List.Sublist.refl _
      · simp only [decNode?, if_neg hz] at h
        rcases hrest : decNode? rest x with _ | ns1
        · rw [hrest] at h; simp at h
        · rw [hrest] at h
          simp only [Option.some.injEq] at h
          subst h
          simp only [List.map_cons]
          exact List.Sublist.cons₂ z (ih hrest)

theorem decNode?_pos {ns : List (Node × Nat)} {x : Node}
    {ns' : List (Node × Nat)} (hpos : ∀ p ∈ ns, 1 ≤ p.2)
    (h : decNode? ns x = some ns') : ∀ p ∈ ns', 1 ≤ p.2 := by
  induction ns generalizing ns' with
  | nil => simp [decNode?] at h
  | cons q rest ih =>
      obtain ⟨z, d⟩ := q
      have hrestpos : ∀ p2 ∈ rest, 1 ≤ p2.2 :=
        fun p2 hp2 => hpos p2 (List.mem_cons_of_mem _ hp2)
      by_cases hz : z = x
      · subst hz
        simp only [decNode?, eq_self_iff_true, if_true,
          Option.some.injEq] at h
        subst h
        intro p hp
        by_cases hd : d = 1
        · subst hd
          simp only [if_pos rfl] at hp
          exact hrestpos p hp
        · have hd2 : 1 ≤ d := hpos (z, d) (List.mem_cons_self _ _)
          simp only [if_neg hd] at hp
          rcases List.mem_cons.1 hp with h1 | h1
          · subst h1; simp; omega
          · exact hrestpos p h1
      · simp only [decNode?, if_neg hz] at h
        rcases hrest : decNode? rest x with _ | ns1
        · rw [hrest] at h; simp at h
        · rw [hrest] at h
          simp only [Option.some.injEq] at h
          subst h
          intro p hp
          rcases List.mem_cons.1 hp with h1 | h1
          · subst h1; exact hpos (z, d) (List.mem_cons_self _ _)
          · exact ih hrestpos hrest p h1

theorem goodNodes_isSome_iff {ns : List (Node × Nat)} (h : GoodNodes ns)
    (y : Node) : (nodeDeg? ns y).isSome ↔ 1 ≤ degOf ns y := by
  rcases ho : nodeDeg? ns y with _ | d
  · simp [degOf, ho]
  · have hd : 1 ≤ d := h.2 (y, d) (nodeDeg?_mem ho)
    simp [degOf, ho, hd]

theorem decNode?_good {ns : List (Node × Nat)} {x : Node}
    {ns' : List (Node × Nat)} (hg : GoodNodes ns)
    (h : decNode? ns x = some ns') : GoodNodes ns' :=
  ⟨(hg.1).sublist (decNode?_map_fst_sublist h), decNode?_pos hg.2 h⟩

theorem decNode?_isSome_of_deg {ns : List (Node × Nat)} {x : Node}
    (hg : GoodNodes ns) (hdeg : 1 ≤ degOf ns x) :
    (decNode? ns x).isSome := by
  rw [decNode?_isSome_iff]
  exact (goodNodes_isSome_iff hg x).2 hdeg
/-! ### Lemmas about the fallible eviction loop `evictNodes?` -/

theorem evictNodes?_good {E : List (Edge × Int)} :
    ∀ {ns ns' : List (Node × Nat)}, GoodNodes ns →
    evictNodes? E ns = some ns' → GoodNodes ns' := by
  induction E with
  | nil =>
      intro ns ns' hg h
      simp only [evictNodes?, Option.some.injEq] at h
      rwa [← h]
  | cons p rest ih =>
      intro ns ns' hg h
      rcases h1 : decNode? ns p.1.1 with _ | ns1
      · simp [evictNodes?, h1] at h
      · rcases h2 : decNode? ns1 p.1.2 with _ | ns2
        · simp [evictNodes?, h1, h2] at h
        · simp only [evictNodes?, h1, h2] at h
          exact ih (decNode?_good (decNode?_good hg h1) h2) h

theorem evictNodes?_degOf {E : List (Edge × Int)} :
    ∀ {ns ns' : List (Node × Nat)}, (∀ p ∈ E, p.1.1 ≠ p.1.2) →
    GoodNodes ns → evictNodes? E ns = some ns' →
    ∀ y, degOf ns' y = degOf ns y - incident y E := by
  induction E with
  | nil =>
      intro ns ns' _ _ h y
      simp only [evictNodes?, Option.some.injEq] at h
      rw [← h]
      simp [incident]
  | cons p rest ih =>
      intro ns ns' hE hg h y
      obtain ⟨⟨a, b⟩, ts⟩ := p
      have hp : a ≠ b := hE _ (List.mem_cons_self _ _)
      rcases h1 : decNode? ns a with _ | ns1
      · simp [evictNodes?, h1] at h
      · rcases h2 : decNode? ns1 b with _ | ns2
        · simp [evictNodes?, h1, h2] at h
        · simp only [evictNodes?, h1, h2] at h
          have hg1 : GoodNodes ns1 := decNode?_good hg h1
          have hstep :
              degOf ns2 y = degOf ns y -
                ((if y = a then 1 else 0) + (if y = b then 1 else 0)) := by
            rw [degOf_decNode? hg1.1 h2, degOf_decNode? hg.1 h1, Nat.sub_sub]
          have hite :
              (if y = a then 1 else 0) + (if y = b then 1 else 0) =
                (if y = a ∨ y = b then 1 else 0) := by
            by_cases ha : y = a
            · by_cases hb : y = b
              · exact absurd (ha ▸ hb) hp
              · simp [ha, hb, hp]
            · by_cases hb : y = b
              · simp [ha, hb, Ne.symm hp]
              · simp [ha, hb]
          calc degOf ns' y
              = degOf ns2 y - incident y rest :=
                ih (fun q hq => hE q (List.mem_cons_of_mem _ hq))
                  (decNode?_good hg1 h2) h y
            _ = degOf ns y - ((if y = a ∨ y = b then 1 else 0) +
                  incident y rest) := by
                rw [hstep, hite, Nat.sub_sub]
            _ = degOf ns y - incident y (((a, b), ts) :: rest) := by
                simp [incident]

theorem evictNodes?_degOf_disj {E : List (Edge × Int)} :
    ∀ {ns ns' : List (Node × Nat)} {y : Node},
    (∀ p ∈ E, y ≠ p.1.1 ∧ y ≠ p.1.2) →
    evictNodes? E ns = some ns' → degOf ns' y = degOf ns y := by
  induction E with
  | nil =>
      intro ns ns' y _ h
      simp only [evictNodes?, Option.some.injEq] at h
      rw [← h]
  | cons p rest ih =>
      intro ns ns' y hdisj h
      have hp := hdisj p (List.mem_cons_self _ _)
      rcases h1 : decNode? ns p.1.1 with _ | ns1
      · simp [evictNodes?, h1] at h
      · rcases h2 : decNode? ns1 p.1.2 with _ | ns2
        · simp [evictNodes?, h1, h2] at h
        · simp only [evictNodes?, h1, h2] at h
          calc degOf ns' y
              = degOf ns2 y :=
                ih (fun q hq => hdisj q (List.mem_cons_of_mem _ hq)) h
            _ = degOf ns1 y := degOf_decNode?_ne h2 hp.2
            _ = degOf ns y := degOf_decNode?_ne h1 hp.1

theorem evictNodes?_isSome {E : List (Edge × Int)} :
    ∀ {ns : List (Node × Nat)}, GoodNodes ns →
    (∀ p ∈ E, p.1.1 ≠ p.1.2) →
    (∀ x, incident x E ≤ degOf ns x) →
    (evictNodes? E ns).isSome := by
  induction E with
  | nil => intro ns _ _ _; simp [evictNodes?]
  | cons p rest ih =>
      intro ns hg hcomp hbound
      obtain ⟨⟨a, b⟩, ts⟩ := p
      have hp : a ≠ b := hcomp _ (List.mem_cons_self _ _)
      have ha : 1 ≤ degOf ns a := by
        have hba := hbound a
        simp [incident] at hba
        omega
      obtain ⟨ns1, h1⟩ :=
        Option.isSome_iff_exists.1 (decNode?_isSome_of_deg hg ha)
      have hg1 : GoodNodes ns1 := decNode?_good hg h1
      have hb : 1 ≤ degOf ns1 b := by
        rw [degOf_decNode?_ne h1 (Ne.symm hp)]
        have hbb := hbound b
        simp [incident] at hbb
        omega
      obtain ⟨ns2, h2⟩ :=
        Option.isSome_iff_exists.1 (decNode?_isSome_of_deg hg1 hb)
      have hg2 : GoodNodes ns2 := decNode?_good hg1 h2
      have hbound2 : ∀ x, incident x rest ≤ degOf ns2 x := by
        intro x
        have hx := hbound x
        simp only [incident] at hx
        rw [degOf_decNode? hg1.1 h2, degOf_decNode? hg.1 h1]
        by_cases hxa : x = a
        · subst hxa
          simp [hp] at hx ⊢
          omega
        · by_cases hxb : x = b
          · subst hxb
            simp [hxa] at hx ⊢
            omega
          · simp [hxa, hxb] at hx ⊢
            omega
      simp only [evictNodes?, h1, h2]
      exact ih hg2 (fun q hq => hcomp q (List.mem_cons_of_mem _ hq)) hbound2

/-! ### Small facts about `canonEdge`, the bootstrap and `incident` -/

theorem canonEdge_ne {a b : String} (h : a ≠ b) :
    (canonEdge a b).1 ≠ (canonEdge a b).2 := by
  unfold canonEdge
  split_ifs <;> simpa using fun hh => h (by simp [hh])

theorem canonEdge_self (a : String) : canonEdge a a = (a, a) := by
  simp [canonEdge]

theorem bootNodes_eq {a b : String} (h : a ≠ b) :
    setNode (setNode [] a 1) b 1 = [(a, 1), (b, 1)] := by
  simp [setNode, h]

theorem incident_singleton (x : Node) (e : Edge) (t : Int) :
    incident x [(e, t)] = if x = e.1 ∨ x = e.2 then 1 else 0 := by
  simp [incident]

/-! ### The degree-consistency invariant -/

/-- All the structural facts the script maintains on its two dictionaries:
edge keys are distinct, every stored edge has two distinct endpoints,
the node table is well formed, and every stored degree equals the number
of stored edges containing the node. -/
def Inv (s : GState) : Prop :=
  (s.edges.map Prod.fst).Nodup ∧
  (∀ p ∈ s.edges, p.1.1 ≠ p.1.2) ∧
  GoodNodes s.nodes ∧
  ∀ x, degOf s.nodes x = incident x s.edges

theorem admit_inv {edges : List (Edge × Int)} {nodes : List (Node × Nat)}
    {e : Edge} (t : Int) (he : e.1 ≠ e.2) (hnew : getEdge? edges e = none)
    (hnd : (edges.map Prod.fst).Nodup)
    (hcomp : ∀ p ∈ edges, p.1.1 ≠ p.1.2) (hg : GoodNodes nodes)
    (hdeg : ∀ x, degOf nodes x = incident x edges) :
    ((setEdge edges e t).map Prod.fst).Nodup ∧
    (∀ p ∈ setEdge edges e t, p.1.1 ≠ p.1.2) ∧
    GoodNodes (admitNodes nodes e) ∧
    ∀ x, degOf (admitNodes nodes e) x = incident x (setEdge edges e t) := by
  refine ⟨setEdge_nodup t hnd, ?_, addNode_good _ (addNode_good _ hg), ?_⟩
  · intro p hp
    rcases mem_setEdge hp with h1 | h1
    · exact hcomp p h1
    · rw [h1]; exact he
  · intro x
    rw [setEdge_of_none t hnew, incident_append, incident_singleton]
    unfold admitNodes
    rw [degOf_addNode, degOf_addNode, hdeg x]
    by_cases h1 : x = e.1
    · by_cases h2 : x = e.2
      · exact absurd (h1 ▸ h2) he
      · simp [h1, h2, he]
    · by_cases h2 : x = e.2
      · simp [h1, h2, Ne.symm he]
      · simp [h1, h2]

theorem evict_deg? {edges1 : List (Edge × Int)}
    {nodes1 nodes2 : List (Node × Nat)} (b : Edge × Int → Bool)
    (hcomp : ∀ p ∈ edges1, p.1.1 ≠ p.1.2) (hg : GoodNodes nodes1)
    (hdeg : ∀ x, degOf nodes1 x = incident x edges1)
    (h : evictNodes? (edges1.filter b) nodes1 = some nodes2) (x : Node) :
    degOf nodes2 x = incident x (edges1.filter fun p => !(b p)) := by
  have hsplit := incident_filter_add x b edges1
  rw [evictNodes?_degOf (fun p hp => hcomp p (List.mem_of_mem_filter hp))
    hg h x, hdeg x]
  omega

/-! ### Case equations and decompositions for `step` and `stepA` -/

theorem step_eq_caseA {s : GState} {ev : Event}
    (h0 : 0 ≤ ev.time - s.latest) :
    step s ev =
      match stepA s (canonEdge ev.target ev.actor) ev.time with
      | none => none
      | some s1 => some (s1, s1.medStr) := by
  simp only [step]
  rw [if_pos h0]

theorem step_caseA_some {s : GState} {ev : Event} {s1 : GState}
    (h0 : 0 ≤ ev.time - s.latest)
    (hA : stepA s (canonEdge ev.target ev.actor) ev.time = some s1) :
    step s ev = some (s1, s1.medStr) := by
  rw [step_eq_caseA h0, hA]

theorem step_some_caseA {s : GState} {ev : Event} {s1 : GState}
    {out : String} (h0 : 0 ≤ ev.time - s.latest)
    (h : step s ev = some (s1, out)) :
    stepA s (canonEdge ev.target ev.actor) ev.time = some s1 ∧
      out = s1.medStr := by
  rw [step_eq_caseA h0] at h
  rcases hA : stepA s (canonEdge ev.target ev.actor) ev.time with _ | s2
  · rw [hA] at h; simp at h
  · rw [hA] at h
    simp only [Option.some.injEq, Prod.mk.injEq] at h
    obtain ⟨h1, h2⟩ := h
    subst h1
    exact ⟨rfl, h2.symm⟩

theorem step_eq_caseBold {s : GState} {ev : Event} {told : Int}
    (h0 : ¬ 0 ≤ ev.time - s.latest) (h60 : -60 < ev.time - s.latest)
    (hex : getEdge? s.edges (canonEdge ev.target ev.actor) = some told) :
    step s ev = some (stepBold s (canonEdge ev.target ev.actor) ev.time told,
                 medStrOf s.medianDeg) := by
  simp only [step]
  rw [if_neg h0, if_pos h60, hex]

theorem step_eq_caseBnew {s : GState} {ev : Event}
    (h0 : ¬ 0 ≤ ev.time - s.latest) (h60 : -60 < ev.time - s.latest)
    (hex : getEdge? s.edges (canonEdge ev.target ev.actor) = none) :
    step s ev = some (stepBnew s (canonEdge ev.target ev.actor) ev.time,
                 (stepBnew s (canonEdge ev.target ev.actor) ev.time).medStr) := by
  simp only [step]
  rw [if_neg h0, if_pos h60, hex]

theorem step_eq_caseC {s : GState} {ev : Event}
    (h : ev.time - s.latest ≤ -60) :
    step s ev = some (s, s.medStr) := by
  have h0 : ¬ 0 ≤ ev.time - s.latest := by omega
  have h60 : ¬ (-60 < ev.time - s.latest) := by omega
  simp only [step]
  rw [if_neg h0, if_neg h60]

theorem stepA_noadv {s : GState} {e : Edge} {t : Int}
    (h : ¬ 0 < t - s.latest) :
    stepA s e t = some (mkState (setEdge s.edges e t)
      (if (getEdge? s.edges e).isSome then s.nodes else admitNodes s.nodes e)
      s.latest) := by
  simp only [stepA]
  rw [if_neg h]

theorem stepA_adv_some {s : GState} {e : Edge} {t : Int} {s1 : GState}
    (hadv : 0 < t - s.latest) (hA : stepA s e t = some s1) :
    ∃ nodes2,
      evictNodes? ((setEdge s.edges e t).filter fun p => decide (p.2 ≤ t - 60))
        (if (getEdge? s.edges e).isSome then s.nodes
         else admitNodes s.nodes e) = some nodes2 ∧
      s1 = mkState ((setEdge s.edges e t).filter fun p => !decide (p.2 ≤ t - 60))
        nodes2 t := by
  simp only [stepA] at hA
  rw [if_pos hadv] at hA
  rcases h2 : evictNodes?
      ((setEdge s.edges e t).filter fun p => decide (p.2 ≤ t - 60))
      (if (getEdge? s.edges e).isSome then s.nodes
       else admitNodes s.nodes e) with _ | nodes2
  · rw [h2] at hA; simp at hA
  · rw [h2] at hA
    simp only [Option.some.injEq] at hA
    exact ⟨nodes2, rfl, hA.symm⟩

theorem stepA_adv_of_evict {s : GState} {e : Edge} {t : Int}
    {nodes2 : List (Node × Nat)} (hadv : 0 < t - s.latest)
    (h2 : evictNodes? ((setEdge s.edges e t).filter fun p => decide (p.2 ≤ t - 60))
        (if (getEdge? s.edges e).isSome then s.nodes
         else admitNodes s.nodes e) = some nodes2) :
    stepA s e t = some (mkState
      ((setEdge s.edges e t).filter fun p => !decide (p.2 ≤ t - 60))
      nodes2 t) := by
  simp only [stepA]
  rw [if_pos hadv, h2]

/-! ### Soundness and invariant preservation of one step -/

theorem stepA_base {s : GState} {e : Edge} (t : Int) (he : e.1 ≠ e.2)
    (h : Inv s) :
    ((setEdge s.edges e t).map Prod.fst).Nodup ∧
    (∀ p ∈ setEdge s.edges e t, p.1.1 ≠ p.1.2) ∧
    GoodNodes (if (getEdge? s.edges e).isSome then s.nodes
               else admitNodes s.nodes e) ∧
    ∀ x, degOf (if (getEdge? s.edges e).isSome then s.nodes
                else admitNodes s.nodes e) x
           = incident x (setEdge s.edges e t) := by
  obtain ⟨hnd, hcomp, hg, hdeg⟩ := h
  rcases hex : getEdge? s.edges e with _ | w
  · simp only [hex, Option.isSome_none, Bool.false_eq_true, if_false]
    exact admit_inv t he hex hnd hcomp hg hdeg
  · simp only [hex, Option.isSome_some, if_true]
    refine ⟨setEdge_nodup t hnd, ?_, hg, ?_⟩
    · intro p hp
      rcases mem_setEdge hp with h1 | h1
      · exact hcomp p h1
      · rw [h1]; exact he
    · intro x
      rw [incident_setEdge_of_some x t (by simp [hex])]
      exact hdeg x

theorem stepA_sound {s : GState} {e : Edge} {t : Int} (he : e.1 ≠ e.2)
    (h : Inv s) : ∃ s1, stepA s e t = some s1 ∧ Inv s1 := by
  obtain ⟨bnd, bcomp, bg, bdeg⟩ := stepA_base t he h
  by_cases hadv : 0 < t - s.latest
  · have hbound : ∀ x,
        incident x ((setEdge s.edges e t).filter
          fun p => decide (p.2 ≤ t - 60)) ≤
        degOf (if (getEdge? s.edges e).isSome then s.nodes
               else admitNodes s.nodes e) x := by
      intro x
      have hsplit := incident_filter_add x
        (fun p => decide (p.2 ≤ t - 60)) (setEdge s.edges e t)
      rw [bdeg x]
      omega
    have hsome := evictNodes?_isSome bg
      (fun p hp => bcomp p (List.mem_of_mem_filter hp)) hbound
    obtain ⟨nodes2, h2⟩ := Option.isSome_iff_exists.1 hsome
    refine ⟨mkState ((setEdge s.edges e t).filter
      fun p => !decide (p.2 ≤ t - 60)) nodes2 t,
      stepA_adv_of_evict hadv h2, ?_, ?_, ?_, ?_⟩
    · exact bnd.sublist (List.Sublist.map Prod.fst (List.filter_sublist _))
    · intro p hp
      exact bcomp p (List.mem_of_mem_filter hp)
    · exact evictNodes?_good bg h2
    · intro x
      exact evict_deg? _ bcomp bg bdeg h2 x
  · exact ⟨_, stepA_noadv hadv, bnd, bcomp, bg, bdeg⟩

theorem stepBold_inv {s : GState} {e : Edge} {t told : Int} (he : e.1 ≠ e.2)
    (hex : getEdge? s.edges e = some told) (h : Inv s) :
    Inv (stepBold s e t told) := by
  obtain ⟨hnd, hcomp, hg, hdeg⟩ := h
  by_cases hlt : told < t
  · simp only [stepBold]
    rw [if_pos hlt]
    refine ⟨setEdge_nodup t hnd, ?_, hg, ?_⟩
    · intro p hp
      rcases mem_setEdge hp with h1 | h1
      · exact hcomp p h1
      · rw [h1]; exact he
    · intro x
      rw [incident_setEdge_of_some x t (by simp [hex])]
      exact hdeg x
  · simp only [stepBold]
    rw [if_neg hlt]
    exact ⟨hnd, hcomp, hg, hdeg⟩

theorem stepBnew_inv {s : GState} {e : Edge} {t : Int} (he : e.1 ≠ e.2)
    (hex : getEdge? s.edges e = none) (h : Inv s) :
    Inv (stepBnew s e t) := by
  obtain ⟨hnd, hcomp, hg, hdeg⟩ := h
  exact admit_inv t he hex hnd hcomp hg hdeg

theorem step_sound {s : GState} {ev : Event} (hab : ev.target ≠ ev.actor)
    (h : Inv s) :
    ∃ s1 out, step s ev = some (s1, out) ∧ Inv s1 := by
  have he := canonEdge_ne hab
  by_cases h0 : 0 ≤ ev.time - s.latest
  · obtain ⟨s1, hA, hinv⟩ := stepA_sound (t := ev.time) he h
    exact ⟨s1, s1.medStr, step_caseA_some h0 hA, hinv⟩
  · by_cases h60 : -60 < ev.time - s.latest
    · rcases hex : getEdge? s.edges (canonEdge ev.target ev.actor)
        with _ | told
      · exact ⟨_, _, step_eq_caseBnew h0 h60 hex, stepBnew_inv he hex h⟩
      · exact ⟨_, _, step_eq_caseBold h0 h60 hex, stepBold_inv he hex h⟩
    · exact ⟨s, s.medStr, step_eq_caseC (by omega), h⟩

theorem boot_inv {ev : Event} (hab : ev.target ≠ ev.actor) :
    Inv (bootState ev) := by
  have he := canonEdge_ne hab
  simp only [bootState, Inv]
  rw [bootNodes_eq he]
  refine ⟨by simp, ?_, ?_, ?_⟩
  · intro p hp
    simp only [List.mem_singleton] at hp
    rw [hp]
    exact he
  · exact ⟨by simpa using he, by simp⟩
  · intro x
    by_cases h1 : x = (canonEdge ev.target ev.actor).1
    · subst h1
      simp [degOf, nodeDeg?, incident]
    · by_cases h2 : x = (canonEdge ev.target ev.actor).2
      · subst h2
        simp [degOf, nodeDeg?, incident, fun hh => h1 hh, Ne.symm he]
      · have h1n : ¬ (canonEdge ev.target ev.actor).1 = x :=
          fun hh => h1 hh.symm
        have h2n : ¬ (canonEdge ev.target ev.actor).2 = x :=
          fun hh => h2 hh.symm
        simp [degOf, nodeDeg?, incident, h1, h2, h1n, h2n]

/-! ### Invariant propagation through the run -/

theorem runEvents_ind (P : GState → Prop)
    (hstep : ∀ s ev s1 out, step s ev = some (s1, out) → P s → P s1) :
    ∀ (l : List (Option Event)) (s st : GState),
      P s → (runEvents s l).1 = some st → P st := by
  intro l
  induction l with
  | nil =>
      intro s st hs h
      simp only [runEvents, Option.some.injEq] at h
      rwa [← h]
  | cons o rest ih =>
      intro s st hs h
      cases o with
      | none =>
          simp only [runEvents] at h
          exact ih s st hs h
      | some ev =>
          simp only [runEvents] at h
          rcases hst : step s ev with _ | p
          · rw [hst] at h; simp at h
          · obtain ⟨s1, out⟩ := p
            rw [hst] at h
            exact ih s1 st (hstep s ev s1 out hst hs) h

theorem runEvents_sound (P : GState → Prop) (Q : Event → Prop)
    (hstep : ∀ s ev, Q ev → P s →
      ∃ s1 out, step s ev = some (s1, out) ∧ P s1) :
    ∀ (l : List (Option Event)) (s : GState),
      (∀ ev : Event, some ev ∈ l → Q ev) → P s →
      ∃ st, (runEvents s l).1 = some st ∧ P st := by
  intro l
  induction l with
  | nil => intro s _ hs; exact ⟨s, rfl, hs⟩
  | cons o rest ih =>
      intro s hq hs
      cases o with
      | none =>
          simp only [runEvents]
          exact ih s (fun ev hev => hq ev (List.mem_cons_of_mem _ hev)) hs
      | some ev =>
          obtain ⟨s1, out, hst, hP1⟩ :=
            hstep s ev (hq ev (List.mem_cons_self _ _)) hs
          obtain ⟨st, hrun, hPst⟩ :=
            ih s1 (fun e2 h2 => hq e2 (List.mem_cons_of_mem _ h2)) hP1
          refine ⟨st, ?_, hPst⟩
          simp only [runEvents, hst]
          exact hrun

theorem processAll_ind (P : GState → Prop)
    (hboot : ∀ ev : Event, P (bootState ev))
    (hstep : ∀ s ev s1 out, step s ev = some (s1, out) → P s → P s1) :
    ∀ (l : List (Option Event)) (r : Option GState) (outs : List String)
      (st : GState),
      processAll l = some (r, outs) → r = some st → P st := by
  intro l
  induction l with
  | nil => intro r outs st h _; simp [processAll] at h
  | cons o rest ih =>
      intro r outs st hp hr
      cases o with
      | none =>
          simp only [processAll] at hp
          exact ih r outs st hp hr
      | some ev =>
          simp only [processAll, Option.some.injEq] at hp
          have hst := congrArg Prod.fst hp
          simp only at hst
          rw [← hst] at hr
          exact runEvents_ind P hstep rest (bootState ev) st (hboot ev) hr

theorem processAll_sound (P : GState → Prop) (Q : Event → Prop)
    (hboot : ∀ ev : Event, Q ev → P (bootState ev))
    (hstep : ∀ s ev, Q ev → P s →
      ∃ s1 out, step s ev = some (s1, out) ∧ P s1) :
    ∀ (l : List (Option Event)) (r : Option GState) (outs : List String),
      (∀ ev : Event, some ev ∈ l → Q ev) →
      processAll l = some (r, outs) →
      ∃ st, r = some st ∧ P st := by
  intro l
  induction l with
  | nil => intro r outs _ h; simp [processAll] at h
  | cons o rest ih =>
      intro r outs hq hp
      cases o with
      | none =>
          simp only [processAll] at hp
          exact ih r outs (fun ev hev => hq ev (List.mem_cons_of_mem _ hev)) hp
      | some ev =>
          simp only [processAll, Option.some.injEq] at hp
          have hst := congrArg Prod.fst hp
          simp only at hst
          obtain ⟨st, hrun, hPst⟩ := runEvents_sound P Q hstep rest
            (bootState ev) (fun e2 h2 => hq e2 (List.mem_cons_of_mem _ h2))
            (hboot ev (hq ev (List.mem_cons_self _ _)))
          exact ⟨st, by rw [← hst, hrun], hPst⟩

theorem processAll_Inv {l : List (Option Event)} {r : Option GState}
    {outs : List String}
    (hq : ∀ ev : Event, some ev ∈ l → ev.target ≠ ev.actor)
    (h : processAll l = some (r, outs)) :
    ∃ st, r = some st ∧ Inv st :=
  processAll_sound Inv (fun ev => ev.target ≠ ev.actor)
    (fun _ hab => boot_inv hab) (fun _ _ hab hs => step_sound hab hs)
    l r outs hq h

/-! ### The window invariant -/

/-- Every stored edge time lies in the half-open window
`(latest_time - 60, latest_time]`. -/
def InvW (s : GState) : Prop :=
  ∀ p ∈ s.edges, s.latest - 60 < p.2 ∧ p.2 ≤ s.latest

theorem stepA_invW {s : GState} {e : Edge} {t : Int} {s1 : GState}
    (h0 : 0 ≤ t - s.latest) (hA : stepA s e t = some s1) (h : InvW s) :
    InvW s1 := by
  by_cases hadv : 0 < t - s.latest
  · obtain ⟨nodes2, h2, hs1⟩ := stepA_adv_some hadv hA
    subst hs1
    intro p hp
    simp only [mkState] at hp
    obtain ⟨hmem, hpred⟩ := List.mem_filter.1 hp
    have hwin : ¬ (p.2 ≤ t - 60) := by simpa using hpred
    rcases mem_setEdge hmem with h1 | h1
    · have := h p h1
      simp only [mkState]
      omega
    · simp only [mkState]
      rw [h1]
      simp
  · rw [stepA_noadv hadv] at hA
    have ht : t = s.latest := by omega
    rw [Option.some.inj hA.symm]
    intro p hp
    simp only [mkState] at hp
    rcases mem_setEdge hp with h1 | h1
    · exact h p h1
    · simp only [mkState]
      rw [h1]
      simp
      omega

theorem step_invW {s : GState} {ev : Event} {s1 : GState} {out : String}
    (hst : step s ev = some (s1, out)) (h : InvW s) : InvW s1 := by
  by_cases h0 : 0 ≤ ev.time - s.latest
  · exact stepA_invW h0 (step_some_caseA h0 hst).1 h
  · by_cases h60 : -60 < ev.time - s.latest
    · rcases hex : getEdge? s.edges (canonEdge ev.target ev.actor)
        with _ | told
      · rw [step_eq_caseBnew h0 h60 hex] at hst
        simp only [Option.some.injEq, Prod.mk.injEq] at hst
        rw [← hst.1]
        intro p hp
        simp only [stepBnew, mkState] at hp
        rcases mem_setEdge hp with h1 | h1
        · exact h p h1
        · simp only [stepBnew, mkState]
          rw [h1]
          simp
          omega
      · rw [step_eq_caseBold h0 h60 hex] at hst
        simp only [Option.some.injEq, Prod.mk.injEq] at hst
        rw [← hst.1]
        by_cases hlt : told < ev.time
        · simp only [stepBold]
          rw [if_pos hlt]
          intro p hp
          rcases mem_setEdge hp with h1 | h1
          · exact h p h1
          · rw [h1]
            simp
            omega
        · simp only [stepBold]
          rw [if_neg hlt]
          exact h
    · rw [step_eq_caseC (by omega)] at hst
      simp only [Option.some.injEq, Prod.mk.injEq] at hst
      rw [← hst.1]
      exact h

theorem boot_invW (ev : Event) : InvW (bootState ev) := by
  intro p hp
  simp only [bootState, List.mem_singleton] at hp
  rw [hp]
  simp only [bootState]
  omega

theorem processAll_InvW {l : List (Option Event)} {r : Option GState}
    {outs : List String} {st : GState}
    (h : processAll l = some (r, outs)) (hr : r = some st) : InvW st :=
  processAll_ind InvW boot_invW
    (fun _ _ _ _ hst hs => step_invW hst hs) l r outs st h hr

/-! ### Eviction removes an edge from the dictionary -/

theorem getEdge?_filter_none {l : List (Edge × Int)}
    (hnd : (l.map Prod.fst).Nodup) {k : Edge} {v : Int}
    (b : Edge × Int → Bool) (h : getEdge? l k = some v)
    (hb : b (k, v) = false) : getEdge? (l.filter b) k = none := by
  rw [getEdge?_eq_none_iff]
  intro hk
  rcases List.mem_map.1 hk with ⟨p, hp, hpk⟩
  obtain ⟨pk, pv⟩ := p
  simp only at hpk
  subst hpk
  have hmem : (pk, pv) ∈ l := List.mem_of_mem_filter hp
  have hv : pv = v := by
    have := mem_getEdge? hnd hmem
    rw [h] at this
    exact (Option.some.inj this).symm
  subst hv
  have htrue : b (pk, pv) = true := (List.mem_filter.1 hp).2
  rw [hb] at htrue
  exact Bool.false_ne_true htrue

/-! ### The specification's median and its agreement with the code -/

/-- Modelled from the spec's words: sort the degree values (here by merge
sort); for an odd count the median is the middle value, at position
`(n - 1) / 2` of the sorted list; for an even count it is the arithmetic
mean of the two middle values, at positions `n / 2 - 1` and `n / 2`. -/
def medianSpec (l : List Nat) : ℚ :=
  let s := l.mergeSort (fun a b => a ≤ b)
  if l.length % 2 = 1 then ((s.getD ((l.length - 1) / 2) 0 : Nat) : ℚ)
  else (((s.getD (l.length / 2 - 1) 0 : Nat) : ℚ) +
        ((s.getD (l.length / 2) 0 : Nat) : ℚ)) / 2

theorem median_eq_medianSpec (l : List Nat) : median l = medianSpec l := by
  have hsort : (l.mergeSort fun a b => decide (a ≤ b)) =
      l.insertionSort (fun a b => a ≤ b) :=
    List.mergeSort_eq_insertionSort (fun a b => a ≤ b) l
  simp only [median, medianSpec, hsort]
  by_cases hodd : l.length % 2 = 1
  · have hidx : l.length / 2 = (l.length - 1) / 2 := by omega
    rw [if_pos hodd, if_pos hodd, hidx]
  · rw [if_neg hodd, if_neg hodd]

/-! ### Shape of the output lines -/

theorem step_snd_medStr {s : GState} {ev : Event} {s1 : GState}
    {out : String} (h : step s ev = some (s1, out)) : out = s1.medStr := by
  by_cases h0 : 0 ≤ ev.time - s.latest
  · exact (step_some_caseA h0 h).2
  · by_cases h60 : -60 < ev.time - s.latest
    · rcases hex : getEdge? s.edges (canonEdge ev.target ev.actor)
        with _ | told
      · rw [step_eq_caseBnew h0 h60 hex] at h
        simp only [Option.some.injEq, Prod.mk.injEq] at h
        rw [← h.2, ← h.1]
      · rw [step_eq_caseBold h0 h60 hex] at h
        simp only [Option.some.injEq, Prod.mk.injEq] at h
        rw [← h.2, ← h.1]
        simp [stepBold]
    · rw [step_eq_caseC (by omega)] at h
      simp only [Option.some.injEq, Prod.mk.injEq] at h
      rw [← h.2, ← h.1]

/-- The stored output string is always the rendering of some median. -/
def MS (s : GState) : Prop := ∃ q : ℚ, s.medStr = medStrOf q

theorem step_MS {s : GState} {ev : Event} {s1 : GState} {out : String}
    (h : step s ev = some (s1, out)) (hs : MS s) : MS s1 := by
  by_cases h0 : 0 ≤ ev.time - s.latest
  · have hA := (step_some_caseA h0 h).1
    by_cases hadv : 0 < ev.time - s.latest
    · obtain ⟨nodes2, _, hs1⟩ := stepA_adv_some hadv hA
      rw [hs1]
      exact ⟨_, rfl⟩
    · rw [stepA_noadv hadv] at hA
      rw [← Option.some.inj hA]
      exact ⟨_, rfl⟩
  · by_cases h60 : -60 < ev.time - s.latest
    · rcases hex : getEdge? s.edges (canonEdge ev.target ev.actor)
        with _ | told
      · rw [step_eq_caseBnew h0 h60 hex] at h
        simp only [Option.some.injEq, Prod.mk.injEq] at h
        rw [← h.1]
        exact ⟨_, rfl⟩
      · rw [step_eq_caseBold h0 h60 hex] at h
        simp only [Option.some.injEq, Prod.mk.injEq] at h
        rw [← h.1]
        exact ⟨s.medianDeg, rfl⟩
    · rw [step_eq_caseC (by omega)] at h
      simp only [Option.some.injEq, Prod.mk.injEq] at h
      rw [← h.1]
      exact hs

theorem runEvents_len :
    ∀ (l : List (Option Event)) (s : GState), (runEvents s l).1.isSome →
    (runEvents s l).2.length = l.countP Option.isSome := by
  intro l
  induction l with
  | nil => intro s _; simp [runEvents]
  | cons o rest ih =>
      intro s hsome
      cases o with
      | none =>
          simp only [runEvents] at hsome ⊢
          simp only [List.countP_cons, Option.isSome_none]
          simpa using ih s hsome
      | some ev =>
          rcases hst : step s ev with _ | p
          · simp only [runEvents, hst] at hsome
            simp at hsome
          · obtain ⟨s1, out⟩ := p
            simp only [runEvents, hst] at hsome ⊢
            simp [List.countP_cons]
            have := ih s1 hsome
            omega

theorem runEvents_out_MS :
    ∀ (l : List (Option Event)) (s : GState), MS s →
    ∀ o ∈ (runEvents s l).2, ∃ q : ℚ, o = medStrOf q := by
  intro l
  induction l with
  | nil => intro s _; simp [runEvents]
  | cons o rest ih =>
      intro s hs
      cases o with
      | none =>
          simp only [runEvents]
          exact ih s hs
      | some ev =>
          rcases hst : step s ev with _ | p
          · simp [runEvents, hst]
          · obtain ⟨s1, out⟩ := p
            simp only [runEvents, hst]
            intro o ho
            rcases List.mem_cons.1 ho with h1 | h1
            · subst h1
              rw [step_snd_medStr hst]
              exact step_MS hst hs
            · exact ih s1 (step_MS hst hs) o h1

theorem boot_MS (ev : Event) : MS (bootState ev) := ⟨1, rfl⟩

theorem processAll_len {l : List (Option Event)} {r : Option GState}
    {outs : List String} (h : processAll l = some (r, outs))
    (hr : r.isSome) : outs.length = l.countP Option.isSome := by
  induction l with
  | nil => simp [processAll] at h
  | cons o rest ih =>
      cases o with
      | none =>
          simp only [processAll] at h
          simp only [List.countP_cons, Option.isSome_none]
          simpa using ih h
      | some ev =>
          simp only [processAll, Option.some.injEq] at h
          have hfst := congrArg Prod.fst h
          have hsnd := congrArg Prod.snd h
          simp only at hfst hsnd
          rw [← hfst] at hr
          rw [← hsnd]
          simp [List.countP_cons]
          have := runEvents_len rest (bootState ev) hr
          omega

theorem processAll_out_MS {l : List (Option Event)} {r : Option GState}
    {outs : List String} (h : processAll l = some (r, outs)) :
    ∀ o ∈ outs, ∃ q : ℚ, o = medStrOf q := by
  induction l with
  | nil => simp [processAll] at h
  | cons o rest ih =>
      cases o with
      | none =>
          simp only [processAll] at h
          exact ih h
      | some ev =>
          simp only [processAll, Option.some.injEq] at h
          have hsnd := congrArg Prod.snd h
          simp only at hsnd
          rw [← hsnd]
          intro o ho
          rcases List.mem_cons.1 ho with h1 | h1
          · exact ⟨1, h1⟩
          · exact runEvents_out_MS rest (bootState ev) (boot_MS ev) o h1

/-! ### Truncation formatting -/

theorem truncTo2_eq_floor {q : ℚ} (hq : 0 ≤ q) : truncTo2 q = ⌊q * 100⌋ := by
  have hnum : 0 ≤ q.num := Rat.num_nonneg.2 hq
  have h1 : truncTo2 q = (q.num * 100) / (q.den : Int) := by
    unfold truncTo2
    exact Int.tdiv_eq_ediv (by positivity) (by positivity)
  have hden : ((q.den : Nat) : ℚ) ≠ 0 := by positivity
  have h2 : (q * 100 : ℚ) = ((q.num * 100 : Int) : ℚ) / ((q.den : Nat) : ℚ) := by
    rw [eq_div_iff hden]
    push_cast
    calc q * 100 * (q.den : ℚ) = q * (q.den : ℚ) * 100 := by ring
      _ = (q.num : ℚ) * 100 := by rw [Rat.mul_den_eq_num]
  rw [h1, h2, Rat.floor_intCast_div_natCast]

/-! ### Claims -/

/-- C1 counterexample: on the event sequence `(A,B)@0`, `(B,C)@10`,
`(A,C)@70` the program emits `1.00`, `1.00`, `1.00` — the claimed second
output `1.50` is wrong (the degree multiset after the second event is
`{A:1, B:2, C:1}`, whose median is `1`). -/
theorem C1_counterexample :
    (processAll [some ⟨"A", "B", 0⟩, some ⟨"B", "C", 10⟩,
        some ⟨"A", "C", 70⟩]).map Prod.snd =
      some ["1.00\r\n", "1.00\r\n", "1.00\r\n"] ∧
    (["1.00\r\n", "1.00\r\n", "1.00\r\n"] : List String) ≠
      ["1.00\r\n", "1.50\r\n", "1.00\r\n"] := by
  with_unfolding_all decide

/-- C1 (amended): the scenario `(A,B)@0`, `(B,C)@10`, `(A,C)@70` emits
exactly `1.00`, `1.00`, `1.00`; the third event evicts `(A,B)` and
`(B,C)`, leaving only edge `(A,C)` with nodes `A` and `C` of degree 1. -/
theorem C1_scenario :
    processAll [some ⟨"A", "B", 0⟩, some ⟨"B", "C", 10⟩,
        some ⟨"A", "C", 70⟩] =
      some (some { edges := [(("A", "C"), 70)],
                   nodes := [("A", 1), ("C", 1)],
                   latest := 70, medianDeg := 1, medStr := "1.00\r\n" },
            ["1.00\r\n", "1.00\r\n", "1.00\r\n"]) := by
  with_unfolding_all decide

/-- C2: the claim that a finite stream with no valid event is fully
consumed with processing ending is violated by the code: at end of file
`readline()` returns the empty string forever, `edge_from_str` keeps
returning `None`, and the bootstrap `while median_degree == 0` loop never
exits.  However much fuel the loop is given, it has not terminated, and
the whole program produces no result. -/
theorem C2_bootstrap_diverges :
    (∀ fuel n : Nat, bootLoopFuel fuel (List.replicate n none) = none) ∧
    (∀ n : Nat, processAll (List.replicate n none) = none) := by
  constructor
  · intro fuel
    induction fuel with
    | zero => intro n; rfl
    | succ f ih =>
        intro n
        cases n with
        | zero => exact ih 0
        | succ m => exact ih m
  · intro n
    induction n with
    | zero => rfl
    | succ m ih => exact ih

/-- C3 counterexample: after the self-transaction `(X,X)@10` the node
table stores degree 2 for `X` although only one active edge contains
`X`, so the degree-consistency claim fails for this input sequence. -/
theorem C3_counterexample :
    processAll [some ⟨"A", "B", 0⟩, some ⟨"X", "X", 10⟩] =
      some (some { edges := [(("A", "B"), 0), (("X", "X"), 10)],
                   nodes := [("A", 1), ("B", 1), ("X", 2)], latest := 10,
                   medianDeg := 1, medStr := "1.00\r\n" },
            ["1.00\r\n", "1.00\r\n"]) ∧
    degOf [("A", 1), ("B", 1), ("X", 2)] "X" = 2 ∧
    incident "X" [(("A", "B"), 0), (("X", "X"), 10)] = 1 := by
  with_unfolding_all decide

/-- C3 (amended): for every input event sequence in which each parsed
event has two distinct endpoint identifiers, after every processed event
the stored degree of every node equals the number of active edges
containing it (and a node absent from the table is contained in no
active edge), every stored degree is the incident-edge count and at
least 1, and a node is present in the table iff its degree is ≥ 1. -/
theorem C3_degree_consistency :
    ∀ (l : List (Option Event)) (st : GState) (outs : List String),
    (∀ ev : Event, some ev ∈ l → ev.target ≠ ev.actor) →
    processAll l = some (some st, outs) →
    (∀ x, degOf st.nodes x = incident x st.edges) ∧
    (∀ x d, nodeDeg? st.nodes x = some d → d = incident x st.edges ∧ 1 ≤ d) ∧
    (∀ x, (nodeDeg? st.nodes x).isSome ↔ 1 ≤ degOf st.nodes x) := by
  intro l st outs hq h
  obtain ⟨st2, hr, hinv⟩ := processAll_Inv hq h
  rw [← Option.some.inj hr] at hinv
  obtain ⟨hnd, hcomp, hg, hdeg⟩ := hinv
  refine ⟨hdeg, ?_, fun x => goodNodes_isSome_iff hg x⟩
  intro x d hxd
  have hdg : degOf st.nodes x = d := by simp [degOf, hxd]
  exact ⟨by rw [← hdeg x, hdg], hg.2 (x, d) (nodeDeg?_mem hxd)⟩

/-- C3 witness: the amended invariant, instantiated on the concrete run
`(A,B)@0`, `(B,C)@10` at node `B` (stored degree 2, two incident
edges). -/
theorem C3_degree_consistency_witness :
    degOf [("A", 1), ("B", 2), ("C", 1)] "B" =
      incident "B" [(("A", "B"), 0), (("B", "C"), 10)] := by
  have h := C3_degree_consistency
      [some ⟨"A", "B", 0⟩, some ⟨"B", "C", 10⟩]
      { edges := [(("A", "B"), 0), (("B", "C"), 10)],
        nodes := [("A", 1), ("B", 2), ("C", 1)], latest := 10,
        medianDeg := 1, medStr := "1.00\r\n" }
      ["1.00\r\n", "1.00\r\n"]
      (by intro ev hev
          simp only [List.mem_cons, List.not_mem_nil, or_false] at hev
          rcases hev with h1 | h1 <;>
            (injection h1 with h2; rw [h2]; with_unfolding_all decide))
      (by with_unfolding_all decide)
  exact h.1 "B"

/-- C4: after every processed event every stored edge time lies strictly
inside the 60-second window ending at `latest_time` (and never ahead of
the clock); and when the clock advances, any edge whose refreshed stored
time is at or behind the new window end `ev.time - 60` — the boundary
included — is no longer in the edge table after the step completes. -/
theorem C4_window_maintenance :
    (∀ (l : List (Option Event)) (st : GState) (outs : List String),
      processAll l = some (some st, outs) →
      ∀ e ts, getEdge? st.edges e = some ts →
        st.latest - 60 < ts ∧ ts ≤ st.latest) ∧
    (∀ (s : GState) (ev : Event) (e2 : Edge) (ts : Int) (s1 : GState)
      (out : String),
      (s.edges.map Prod.fst).Nodup → 0 < ev.time - s.latest →
      getEdge? (setEdge s.edges (canonEdge ev.target ev.actor) ev.time) e2 =
        some ts →
      ts ≤ ev.time - 60 → step s ev = some (s1, out) →
      getEdge? s1.edges e2 = none) := by
  constructor
  · intro l st outs h e ts hts
    exact processAll_InvW h rfl (e, ts) (getEdge?_mem hts)
  · intro s ev e2 ts s1 out hnd hadv hts hle hstep
    have hA := (step_some_caseA (by omega) hstep).1
    obtain ⟨nodes2, h2, hs1⟩ := stepA_adv_some hadv hA
    subst hs1
    simp only [mkState]
    exact getEdge?_filter_none (setEdge_nodup _ hnd) _ hts (by simp [hle])

/-- C4 witness: the window facts instantiated on a concrete run — the
bootstrap edge of `(A,B)@0` lies in the window, and a later event at
time 70 evicts it (its time 0 is at the boundary-inclusive cutoff 10). -/
theorem C4_window_maintenance_witness :
    ((bootState ⟨"A", "B", 0⟩).latest - 60 < (0 : Int) ∧
      (0 : Int) ≤ (bootState ⟨"A", "B", 0⟩).latest) ∧
    getEdge? ({ edges := [(("A", "C"), 70)],
                nodes := [("A", 1), ("C", 1)],
                latest := 70, medianDeg := 1,
                medStr := "1.00\r\n" } : GState).edges ("A", "B") = none := by
  constructor
  · exact C4_window_maintenance.1 [some ⟨"A", "B", 0⟩] _ ["1.00\r\n"]
      (by with_unfolding_all decide) ("A", "B") 0
      (by with_unfolding_all decide)
  · exact C4_window_maintenance.2 (bootState ⟨"A", "B", 0⟩) ⟨"A", "C", 70⟩
      ("A", "B") 0 _ "1.00\r\n" (by with_unfolding_all decide)
      (by with_unfolding_all decide) (by with_unfolding_all decide)
      (by with_unfolding_all decide) (by with_unfolding_all decide)

/-- C5: the printed median is the two-decimal truncation toward zero:
`int(median*100)` equals `⌊median * 100⌋` for the nonnegative medians the
program produces, `3` prints as `3.00`, `7/2` prints as `3.50`, and every
median in `[3.49, 3.50)` prints as `3.49`, never `3.50`. -/
theorem C5_truncation :
    ∀ q : ℚ, 0 ≤ q →
    truncTo2 q = ⌊q * 100⌋ ∧
    fmt2 (truncTo2 3) = "3.00" ∧
    fmt2 (truncTo2 (7 / 2)) = "3.50" ∧
    ((349 : ℚ) / 100 ≤ q → q < (350 : ℚ) / 100 →
      fmt2 (truncTo2 q) = "3.49") := by
  intro q hq
  refine ⟨truncTo2_eq_floor hq, by with_unfolding_all decide,
    by with_unfolding_all decide, ?_⟩
  intro h1 h2
  have h349 : truncTo2 q = 349 := by
    rw [truncTo2_eq_floor hq, Int.floor_eq_iff]
    constructor
    · push_cast
      linarith
    · push_cast
      linarith
  rw [h349]
  with_unfolding_all decide

/-- C5 witness: the truncation facts at the contrived median
`6999/2000 = 3.4995`, which prints as `3.49`. -/
theorem C5_truncation_witness :
    (0 : ℚ) ≤ 6999 / 2000 ∧ fmt2 (truncTo2 (6999 / 2000)) = "3.49" :=
  ⟨by norm_num, (C5_truncation (6999 / 2000) (by norm_num)).2.2.2
    (by norm_num) (by norm_num)⟩

/-- C6: whenever a step that changes the degree multiset (Case A, or
Case B with a new edge) completes, the line it writes renders exactly
the standard median — middle value for an odd count, mean of the two
middle values for an even count — of the updated degree multiset. -/
theorem C6_median_reported :
    ∀ (s : GState) (ev : Event) (s1 : GState) (out : String),
    (0 ≤ ev.time - s.latest ∨
     (-60 < ev.time - s.latest ∧
      getEdge? s.edges (canonEdge ev.target ev.actor) = none)) →
    step s ev = some (s1, out) →
    out = medStrOf (medianSpec (s1.nodes.map Prod.snd)) := by
  intro s ev s1 out h hstep
  by_cases h0 : 0 ≤ ev.time - s.latest
  · obtain ⟨hA, hout⟩ := step_some_caseA h0 hstep
    subst hout
    by_cases hadv : 0 < ev.time - s.latest
    · obtain ⟨nodes2, _, hs1⟩ := stepA_adv_some hadv hA
      subst hs1
      simp only [mkState]
      rw [median_eq_medianSpec]
    · rw [stepA_noadv hadv] at hA
      rw [← Option.some.inj hA]
      simp only [mkState]
      rw [median_eq_medianSpec]
  · rcases h with h0' | ⟨h60, hex⟩
    · exact absurd h0' h0
    · rw [step_eq_caseBnew h0 h60 hex] at hstep
      simp only [Option.some.injEq, Prod.mk.injEq] at hstep
      rw [← hstep.2, ← hstep.1]
      simp only [stepBnew, mkState]
      rw [median_eq_medianSpec]

/-- C6 witness: the reported line of the Case A step from the bootstrap
state of `(A,B)@0` on `(B,C)@10` renders the standard median of the new
degree multiset. -/
theorem C6_median_reported_witness :
    (0 : Int) ≤ (⟨"B", "C", 10⟩ : Event).time -
        (bootState ⟨"A", "B", 0⟩).latest ∧
    "1.00\r\n" = medStrOf (medianSpec
      ((({ edges := [(("A", "B"), 0), (("B", "C"), 10)],
           nodes := [("A", 1), ("B", 2), ("C", 1)],
           latest := 10,
           medianDeg := 1,
           medStr := "1.00\r\n" } : GState)).nodes.map Prod.snd)) :=
  ⟨by with_unfolding_all decide,
   C6_median_reported (bootState ⟨"A", "B", 0⟩) ⟨"B", "C", 10⟩ _ _
     (Or.inl (by with_unfolding_all decide))
     (by with_unfolding_all decide)⟩

/-- C7: replaying an event whose edge is already stored, with a
timestamp at most the stored one (and at most the clock) but still
inside the window, completes with every dictionary, the clock and
`median_degree` unchanged, and writes the rendering of the very median
that was reported before. -/
theorem C7_idempotent_replay :
    ∀ (s : GState) (ev : Event) (ts : Int),
    getEdge? s.edges (canonEdge ev.target ev.actor) = some ts →
    ev.time ≤ ts → ts ≤ s.latest → s.latest - 60 < ev.time →
    s.medianDeg = median (s.nodes.map Prod.snd) →
    step s ev = some ({ edges := s.edges, nodes := s.nodes,
                        latest := s.latest, medianDeg := s.medianDeg,
                        medStr := medStrOf s.medianDeg },
                      medStrOf s.medianDeg) := by
  intro s ev ts hex hle hts hwin hmed
  by_cases h0 : 0 ≤ ev.time - s.latest
  · have h2 : ts = ev.time := by omega
    have hadv : ¬ 0 < ev.time - s.latest := by omega
    rw [h2] at hex
    have hset : setEdge s.edges (canonEdge ev.target ev.actor) ev.time =
        s.edges := setEdge_of_self hex
    have hA : stepA s (canonEdge ev.target ev.actor) ev.time =
        some (mkState s.edges s.nodes s.latest) := by
      rw [stepA_noadv hadv, hset, hex]
      simp
    have hmk : mkState s.edges s.nodes s.latest =
        { edges := s.edges, nodes := s.nodes, latest := s.latest,
          medianDeg := s.medianDeg, medStr := medStrOf s.medianDeg } := by
      unfold mkState
      rw [← hmed]
    rw [step_caseA_some h0 hA, hmk]
  · have h60 : -60 < ev.time - s.latest := by omega
    rw [step_eq_caseBold h0 h60 hex]
    have hnlt : ¬ ts < ev.time := by omega
    have hbold : stepBold s (canonEdge ev.target ev.actor) ev.time ts =
        { edges := s.edges, nodes := s.nodes, latest := s.latest,
          medianDeg := s.medianDeg, medStr := medStrOf s.medianDeg } := by
      simp only [stepBold]
      rw [if_neg hnlt]
    rw [hbold]

/-- C7 witness: replaying `(A,B)` at time 90 against the bootstrap state
of `(A,B)@100` (stored time 100, window end 40) changes nothing and
re-renders the stored median. -/
theorem C7_idempotent_replay_witness :
    step (bootState ⟨"A", "B", 100⟩) ⟨"A", "B", 90⟩ =
      some ({ edges := (bootState ⟨"A", "B", 100⟩).edges,
              nodes := (bootState ⟨"A", "B", 100⟩).nodes,
              latest := (bootState ⟨"A", "B", 100⟩).latest,
              medianDeg := (bootState ⟨"A", "B", 100⟩).medianDeg,
              medStr := medStrOf (bootState ⟨"A", "B", 100⟩).medianDeg },
            medStrOf (bootState ⟨"A", "B", 100⟩).medianDeg) :=
  C7_idempotent_replay _ _ 100 (by with_unfolding_all decide)
    (by with_unfolding_all decide) (by with_unfolding_all decide)
    (by with_unfolding_all decide) (by with_unfolding_all decide)

/-- C8: an event whose timestamp is at least 60 seconds behind
`latest_time` is a complete no-op: the state is returned unchanged and
the previously stored output string is written again. -/
theorem C8_out_of_window :
    ∀ (s : GState) (ev : Event), ev.time - s.latest ≤ -60 →
    step s ev = some (s, s.medStr) :=
  fun _ _ h => step_eq_caseC h

/-- C8 witness: a transaction 60 seconds behind the clock of the
bootstrap state leaves the state untouched and re-emits its stored
line. -/
theorem C8_out_of_window_witness :
    step (bootState ⟨"A", "B", 100⟩) ⟨"C", "D", 40⟩ =
      some (bootState ⟨"A", "B", 100⟩, (bootState ⟨"A", "B", 100⟩).medStr) :=
  C8_out_of_window _ _ (by with_unfolding_all decide)

/-- C9 counterexample: on the input `(X,X)@0`, `(A,B)@70` the bootstrap
dictionary literal gives the self-loop node `X` degree 1, and evicting
edge `(X,X)` at the second event pops `X` on the first pass of the
eviction loop and raises `KeyError` on the second, killing the run: only
the bootstrap line is ever written, one line for two `Some` events. -/
theorem C9_counterexample :
    processAll [some ⟨"X", "X", 0⟩, some ⟨"A", "B", 70⟩] =
      some (none, ["1.00\r\n"]) ∧
    (["1.00\r\n"] : List String).length ≠
      ([some ⟨"X", "X", 0⟩, some ⟨"A", "B", 70⟩] :
        List (Option Event)).countP Option.isSome := by
  with_unfolding_all decide

/-- C9 (amended): for every input event sequence in which each parsed
event has two distinct endpoint identifiers, the run completes normally,
exactly one output line is produced per `Some` Event-Source result (the
bootstrap line included) and none per `None`, and every output line is
the two-decimal truncated median followed by CRLF. -/
theorem C9_output_contract :
    ∀ (l : List (Option Event)) (r : Option GState) (outs : List String),
    (∀ ev : Event, some ev ∈ l → ev.target ≠ ev.actor) →
    processAll l = some (r, outs) →
    (∃ st, r = some st) ∧
    outs.length = l.countP Option.isSome ∧
    ∀ o ∈ outs, ∃ q : ℚ, o = fmt2 (truncTo2 q) ++ "\r\n" := by
  intro l r outs hq h
  obtain ⟨st, hr, _⟩ := processAll_Inv hq h
  refine ⟨⟨st, hr⟩, processAll_len h (by rw [hr]; rfl), ?_⟩
  intro o ho
  rcases processAll_out_MS h o ho with ⟨q2, hq2⟩
  exact ⟨q2, hq2⟩

/-- C9 witness: the output contract on the concrete input with a `None`
line between two parsed events — two output lines for three input
lines, and a normal completion. -/
theorem C9_output_contract_witness :
    (∃ st, (some ({ edges := [(("A", "B"), 0), (("B", "C"), 10)],
                    nodes := [("A", 1), ("B", 2), ("C", 1)],
                    latest := 10,
                    medianDeg := 1,
                    medStr := "1.00\r\n" } : GState) :
          Option GState) = some st) ∧
    (["1.00\r\n", "1.00\r\n"] : List String).length =
      ([some ⟨"A", "B", 0⟩, none, some ⟨"B", "C", 10⟩] :
        List (Option Event)).countP Option.isSome ∧
    ∀ o ∈ (["1.00\r\n", "1.00\r\n"] : List String),
      ∃ q : ℚ, o = fmt2 (truncTo2 q) ++ "\r\n" :=
  C9_output_contract [some ⟨"A", "B", 0⟩, none, some ⟨"B", "C", 10⟩]
    (some { edges := [(("A", "B"), 0), (("B", "C"), 10)],
            nodes := [("A", 1), ("B", 2), ("C", 1)], latest := 10,
            medianDeg := 1, medStr := "1.00\r\n" })
    ["1.00\r\n", "1.00\r\n"]
    (by intro ev hev
        simp only [List.mem_cons, List.not_mem_nil, or_false] at hev
        rcases hev with h1 | h1 | h1 <;>
          first
          | (injection h1 with h2; rw [h2]; with_unfolding_all decide)
          | (exact absurd h1 (by simp)))
    (by with_unfolding_all decide)

/-- C10: admitting a fresh self-transaction `(X,X)` — in Case A or in
Case B — iterates over both components of the canonical pair, so when
the step completes, a previously absent node `X` ends with stored degree
2 although exactly one stored edge contains `X`. -/
theorem C10_self_loop :
    ∀ (s : GState) (ev : Event) (s1 : GState) (out : String),
    ev.target = ev.actor →
    s.latest - 60 < ev.time →
    getEdge? s.edges (ev.actor, ev.actor) = none →
    nodeDeg? s.nodes ev.actor = none →
    incident ev.actor s.edges = 0 →
    step s ev = some (s1, out) →
    degOf s1.nodes ev.actor = 2 ∧
    incident ev.actor s1.edges = 1 := by
  intro s ev s1 out hxx hwin hex hnode hinc hstep
  have hce : canonEdge ev.target ev.actor = (ev.actor, ev.actor) := by
    rw [hxx, canonEdge_self]
  have hdeg0 : degOf s.nodes ev.actor = 0 := by simp [degOf, hnode]
  have hAdm : degOf (admitNodes s.nodes (ev.actor, ev.actor)) ev.actor
      = 2 := by
    unfold admitNodes
    rw [degOf_addNode, degOf_addNode, hdeg0]
    simp
  have happ : setEdge s.edges (ev.actor, ev.actor) ev.time =
      s.edges ++ [((ev.actor, ev.actor), ev.time)] :=
    setEdge_of_none _ hex
  have hbf : (decide (ev.time ≤ ev.time - 60)) = false := by
    simp only [decide_eq_false_iff_not]
    omega
  by_cases h0 : 0 ≤ ev.time - s.latest
  · have hA := (step_some_caseA h0 hstep).1
    rw [hce] at hA
    by_cases hadv : 0 < ev.time - s.latest
    · obtain ⟨nodes2, h2, hs1⟩ := stepA_adv_some hadv hA
      subst hs1
      simp only [hex, Option.isSome_none, Bool.false_eq_true,
        if_false] at h2
      rw [happ, List.filter_append] at h2
      have hnil : List.filter (fun p => decide (p.2 ≤ ev.time - 60))
          [((ev.actor, ev.actor), ev.time)] = [] := by
        simp [List.filter_cons, hbf]
      rw [hnil, List.append_nil] at h2
      have hdisj : ∀ p ∈ List.filter
          (fun p => decide (p.2 ≤ ev.time - 60)) s.edges,
          ev.actor ≠ p.1.1 ∧ ev.actor ≠ p.1.2 :=
        fun p hp =>
          not_mem_of_incident_eq_zero hinc (List.mem_of_mem_filter hp)
      constructor
      · simp only [mkState]
        rw [evictNodes?_degOf_disj hdisj h2]
        exact hAdm
      · simp only [mkState]
        rw [happ, List.filter_append]
        have hone : List.filter (fun p => !decide (p.2 ≤ ev.time - 60))
            [((ev.actor, ev.actor), ev.time)] =
            [((ev.actor, ev.actor), ev.time)] := by
          simp [List.filter_cons, hbf]
        rw [hone, incident_append, incident_singleton]
        have hsplit :
            incident ev.actor
                (s.edges.filter fun p => decide (p.2 ≤ ev.time - 60)) +
              incident ev.actor
                (s.edges.filter fun p => !decide (p.2 ≤ ev.time - 60)) =
              incident ev.actor s.edges :=
          incident_filter_add ev.actor
            (fun p => decide (p.2 ≤ ev.time - 60)) s.edges
        rw [hinc] at hsplit
        simp
        omega
    · rw [stepA_noadv hadv] at hA
      rw [← Option.some.inj hA]
      simp only [mkState, hex, Option.isSome_none, Bool.false_eq_true,
        if_false]
      refine ⟨hAdm, ?_⟩
      rw [happ, incident_append, hinc, incident_singleton]
      simp
  · have h60 : -60 < ev.time - s.latest := by omega
    have hex2 : getEdge? s.edges (canonEdge ev.target ev.actor) = none := by
      rw [hce]
      exact hex
    rw [step_eq_caseBnew h0 h60 hex2] at hstep
    simp only [Option.some.injEq, Prod.mk.injEq] at hstep
    rw [← hstep.1, hce]
    simp only [stepBnew, mkState]
    refine ⟨hAdm, ?_⟩
    rw [happ, incident_append, hinc, incident_singleton]
    simp

/-- C10 witness: from the bootstrap state of `(A,B)@0`, the
self-transaction `(X,X)@70` completes (the evicted edge `(A,B)` has both
endpoints present) and leaves node `X` with stored degree 2 while
exactly one stored edge contains `X`. -/
theorem C10_self_loop_witness :
    degOf ({ edges := [(("X", "X"), 70)],
             nodes := [("X", 2)],
             latest := 70, medianDeg := 2,
             medStr := "2.00\r\n" } : GState).nodes "X" = 2 ∧
    incident "X" ({ edges := [(("X", "X"), 70)],
                    nodes := [("X", 2)],
                    latest := 70, medianDeg := 2,
                    medStr := "2.00\r\n" } : GState).edges = 1 :=
  C10_self_loop (bootState ⟨"A", "B", 0⟩) ⟨"X", "X", 70⟩ _ "2.00\r\n"
    rfl (by with_unfolding_all decide) (by with_unfolding_all decide)
    (by with_unfolding_all decide) (by with_unfolding_all decide)
    (by with_unfolding_all decide)

end MedianDegree
